import Mathlib

/-!
# chatfinanceiro: the chat ledger of `src/app.jsx` and `src/FinanceChat.js`

A shallow embedding of the two React components of the repository.  React state is an
explicit record, every handler is a function from the state before the event to the state
after it, and a handler that throws returns `Except.error`.

Modelling conventions:

* a JavaScript string is a list of characters (`JsString`);
* a finite number is the rational it denotes; `parseFloat` rounds to the nearest IEEE
  double and overflows to a result that is not finite; the `+` and `-` of the handlers are
  exact, and the `+` of the memo `aggregated` is a parameter, with `doubleAdd` for the
  addition of IEEE doubles;
* `String.prototype.toLowerCase` is a parameter of the handlers that call it, so every
  statement holds for whatever case mapping the engine implements.
-/

set_option maxRecDepth 100000

/-- A JavaScript string, as the list of its characters. -/
abbrev JsString := List Char

deriving instance DecidableEq for Except

/-- Errors a handler can throw. -/
inductive JsError where
  /-- Reading a property of `undefined`. -/
  | typeError
  /-- Thrown by `JSON.parse` on a malformed text. -/
  | syntaxError
  deriving DecidableEq, Repr

/-! ## String primitives of the ECMAScript library -/

/-- The code points of ECMAScript `WhiteSpace` and `LineTerminator`: what `trim` strips and
what `\s` matches in a regular expression. -/
def isWhiteSpace (c : Char) : Bool :=
  let n := c.toNat
  n == 0x09 || n == 0x0A || n == 0x0B || n == 0x0C || n == 0x0D || n == 0x20 ||
  n == 0xA0 || n == 0x1680 || (0x2000 ≤ n && n ≤ 0x200A) || n == 0x2028 || n == 0x2029 ||
  n == 0x202F || n == 0x205F || n == 0x3000 || n == 0xFEFF

/-- The character class `[0-9]`, which is also `\d`. -/
def isDigit (c : Char) : Bool :=
  48 ≤ c.toNat && c.toNat ≤ 57

/-- The method `trim`: whitespace removed at both ends. -/
def trim (s : JsString) : JsString :=
  ((s.dropWhile isWhiteSpace).reverse.dropWhile isWhiteSpace).reverse

/-- Whether `p` starts `s`. -/
def startsWith : JsString → JsString → Bool
  | _, [] => true
  | [], _ :: _ => false
  | c :: cs, d :: ds => c == d && startsWith cs ds

/-- The method `includes`: `p` occurs in `s` as a contiguous run. -/
def includes : JsString → JsString → Bool
  | [], p => startsWith [] p
  | c :: cs, p => startsWith (c :: cs) p || includes cs p

/-- Scanning part of `splitWhitespace`: `current` holds the piece being read, reversed, and
`inSeparator` tells that the previous character belonged to a separator. -/
def splitWhitespaceFrom : JsString → Bool → JsString → List JsString
  | [], _, current => [current.reverse]
  | c :: cs, inSeparator, current =>
    if isWhiteSpace c then
      if inSeparator then splitWhitespaceFrom cs true []
      else current.reverse :: splitWhitespaceFrom cs true []
    else splitWhitespaceFrom cs false (c :: current)

/-- The call `s.split(/\s+/)`: the pieces between maximal runs of whitespace.  A run at the
start or at the end of `s` leaves an empty piece there, and the result is never empty. -/
def splitWhitespace (s : JsString) : List JsString :=
  splitWhitespaceFrom s false []

/-- Scanning part of `splitSpace`. -/
def splitSpaceFrom : JsString → JsString → List JsString
  | [], current => [current.reverse]
  | c :: cs, current =>
    if c.toNat == 0x20 then current.reverse :: splitSpaceFrom cs []
    else splitSpaceFrom cs (c :: current)

/-- The call `s.split(" ")`: the pieces between single U+0020 characters.  Two spaces in a
row, or a space at either end, leave an empty piece, and the result is never empty. -/
def splitSpace (s : JsString) : List JsString :=
  splitSpaceFrom s []

/-- The value of a run of decimal digits. -/
def digitsValue (ds : JsString) : Nat :=
  ds.foldl (fun n c => 10 * n + (c.toNat - 48)) 0

/-- The first match of the regular expression `/([0-9]+([\.,][0-9]+)?)/` in `s`, as the text
of its group 1: the leftmost maximal run of digits, extended by a `.` or `,` and the digits
after it when at least one digit follows the separator. -/
def matchDecimal : JsString → Option JsString
  | [] => none
  | c :: cs =>
    if isDigit c then
      let whole := (c :: cs).takeWhile isDigit
      match (c :: cs).dropWhile isDigit with
      | [] => some whole
      | sep :: more =>
        if (sep == '.' || sep == ',') && !(more.takeWhile isDigit).isEmpty then
          some (whole ++ sep :: more.takeWhile isDigit)
        else some whole
    else matchDecimal cs

/-- The first match of the regular expression `/(\d+)/` in `s`: the leftmost maximal run of
digits. -/
def matchDigits : JsString → Option JsString
  | [] => none
  | c :: cs => if isDigit c then some ((c :: cs).takeWhile isDigit) else matchDigits cs

/-- The call `s.replace(',', '.')` with a string pattern: only the first comma is replaced. -/
def replaceComma : JsString → JsString
  | [] => []
  | c :: cs => if c == ',' then '.' :: cs else c :: replaceComma cs

/-- The number written by an integer part and a fraction part, both runs of digits. -/
def decimalValue (intPart fracPart : JsString) : ℚ :=
  (digitsValue intPart : ℚ) + (digitsValue fracPart : ℚ) / (10 : ℚ) ^ fracPart.length

/-- Scanning part of `bitLength`, with a bound on the number of steps. -/
def bitLengthFrom : Nat → Nat → Nat
  | 0, _ => 0
  | fuel + 1, n => if n = 0 then 0 else bitLengthFrom fuel (n / 2) + 1

/-- The number of binary digits of `n`. -/
def bitLength (n : Nat) : Nat :=
  bitLengthFrom n n

/-- The binary exponent of the positive rational `n / d`: the integer `e` with
`2 ^ e ≤ n / d < 2 ^ (e + 1)`. -/
def binaryExponent (n d : Nat) : Int :=
  let k : Int := (bitLength n : Int) - (bitLength d : Int)
  if d * 2 ^ k.toNat ≤ n * 2 ^ (-k).toNat then k else k - 1

/-- Rounding to the nearest IEEE 754 double, ties to the even significand: 53 significant
binary digits, and multiples of `2 ^ (-1074)` in the subnormal range.  The exponent has no
upper limit here; `parseFloat` tests the result for overflow. -/
def roundToDouble (q : ℚ) : ℚ :=
  if q = 0 then 0
  else
    let n := q.num.natAbs
    let d := q.den
    let p : Int := max (binaryExponent n d - 52) (-1074)
    let scaledNum := n * 2 ^ (-p).toNat
    let scaledDen := d * 2 ^ p.toNat
    let f := scaledNum / scaledDen
    let r := scaledNum % scaledDen
    let m :=
      if 2 * r < scaledDen then f
      else if scaledDen < 2 * r then f + 1
      else if f % 2 = 0 then f else f + 1
    let magnitude : ℚ := (m : ℚ) * (2 : ℚ) ^ p
    if q < 0 then -magnitude else magnitude

/-- The operator `+` on two doubles whose sum does not overflow: the exact sum, rounded. -/
def doubleAdd (a b : ℚ) : ℚ :=
  roundToDouble (a + b)

/-- An optional sign at the start of `s`: whether it is a minus, and what follows it. -/
def takeSign : JsString → Bool × JsString
  | [] => (false, [])
  | c :: cs => if c == '-' then (true, cs) else if c == '+' then (false, cs) else (false, c :: cs)

/-- The exponent written at the start of `s` (`e` or `E`, an optional sign, digits), and 0
when `s` does not start with one. -/
def exponentPart : JsString → Int
  | [] => 0
  | c :: cs =>
    if c == 'e' || c == 'E' then
      let run := (takeSign cs).2.takeWhile isDigit
      if run.isEmpty then 0
      else if (takeSign cs).1 then -(digitsValue run : Int) else (digitsValue run : Int)
    else 0

/-- The global function `parseFloat`: leading whitespace is skipped, the longest prefix that
is a decimal literal is read, and its value is rounded to the nearest double.  `none` stands
for a result that is not a finite number: `NaN` when no literal starts the string, the
literal `Infinity`, and a literal whose rounded magnitude reaches `2 ^ 1024`. -/
def parseFloat (s : JsString) : Option ℚ :=
  let signed := takeSign (s.dropWhile isWhiteSpace)
  let intPart := signed.2.takeWhile isDigit
  let afterInt := signed.2.dropWhile isDigit
  let fracPart := match afterInt with
    | [] => []
    | c :: cs => if c == '.' then cs.takeWhile isDigit else []
  let afterFrac := match afterInt with
    | [] => []
    | c :: cs => if c == '.' then cs.dropWhile isDigit else c :: cs
  if intPart.isEmpty && fracPart.isEmpty then none
  else
    let magnitude :=
      roundToDouble (decimalValue intPart fracPart * (10 : ℚ) ^ exponentPart afterFrac)
    if (2 : ℚ) ^ (1024 : Nat) ≤ magnitude then none
    else some (if signed.1 then -magnitude else magnitude)

/-- Indexing `xs[i]` with a number: `undefined` (here `none`) outside the bounds. -/
def elementAt {α : Type} (xs : List α) (i : Int) : Option α :=
  if 0 ≤ i then xs[i.toNat]? else none

/-- The method `filter` with a callback that reads the element and its index; `i` is the
index of the head of the list. -/
def filterFrom {α : Type} (keep : α → Nat → Bool) : Nat → List α → List α
  | _, [] => []
  | i, x :: xs =>
    if keep x i then x :: filterFrom keep (i + 1) xs else filterFrom keep (i + 1) xs

/-- The method `map` with a callback that reads the element and its index; `i` is the index
of the head of the list. -/
def mapFrom {α β : Type} (f : α → Nat → β) : Nat → List α → List β
  | _, [] => []
  | i, x :: xs => f x i :: mapFrom f (i + 1) xs

/-! ## Data shared by the two components -/

/-- The text of a bot message.  Each constructor stands for one of the reply templates of
`handleSend`, with the numbers the template interpolates. -/
inductive BotReply (ν : Type) where
  /-- The reply `'Ainda estou aprendendo a responder sobre finanças pessoais.'`. -/
  | learning
  /-- The reply `Anotado ✅! Você registrou uma despesa de R$ …`, with the value. -/
  | recorded (value : ν)
  /-- The reply `Resumo: R$ … gastos, saldo disponível R$ ….`, with total and balance. -/
  | summary (total balance : ν)
  /-- The reply `'Meta registrada 🎯! Lembre-se de acompanhar mensalmente.'`. -/
  | goal
  /-- The reply that starts `'Dica: '`. -/
  | tip
  deriving DecidableEq, Repr

/-- An entry of the `messages` state: `{ sender: 'user', text }` or `{ sender: 'bot', text }`. -/
inductive ChatMessage (ν : Type) where
  | user (text : JsString)
  | bot (text : BotReply ν)
  deriving DecidableEq, Repr

/-- The purpose of a user message, as the glossary of the specification names it. -/
inductive Intent where
  | recordExpense
  | summary
  | goal
  | tip
  | unknown
  deriving DecidableEq, Repr

/-- The intent a bot reply answers. -/
def BotReply.intent {ν : Type} : BotReply ν → Intent
  | .learning => .unknown
  | .recorded _ => .recordExpense
  | .summary _ _ => .summary
  | .goal => .goal
  | .tip => .tip

/-- A value `JSON.parse` can return.  Arrays and objects are not told apart: the balance
initialisers only test them for `null` and for truthiness. -/
inductive JsValue where
  | null
  | bool (b : Bool)
  | number (q : ℚ)
  | string (s : JsString)
  | object
  deriving DecidableEq, Repr

/-- Truthiness of a value, as `||` tests it. -/
def JsValue.truthy : JsValue → Bool
  | .null => false
  | .bool b => b
  | .number q => decide (q ≠ 0)
  | .string s => !s.isEmpty
  | .object => true

/-- An entry of `localStorage`, by what reading it does: the key is absent, reading or
parsing its text fails, or its text is the JSON text of a value. -/
inductive StoredItem where
  | absent
  | unreadable
  | json (v : JsValue)
  deriving DecidableEq, Repr

/-- The expression `JSON.parse(localStorage.getItem(key))`.  For an absent key `getItem`
returns `null`, which `JSON.parse` converts to the text `null` and parses. -/
def parseStored : StoredItem → Except JsError JsValue
  | .absent => .ok .null
  | .unreadable => .error .syntaxError
  | .json v => .ok v

/-- What the save effect `localStorage.setItem('balance', JSON.stringify(balance))` leaves
in the store for a finite balance: the JSON text of that number. -/
def savedBalance (balance : ℚ) : StoredItem :=
  .json (.number balance)

/-- A number of `src/FinanceChat.js`, which stores the result of `parseFloat` unchecked:
`some q` is the finite number `q`, `none` a number that is not finite (`NaN`, `Infinity`,
`-Infinity`).  Adding or subtracting with a number that is not finite gives one again. -/
abbrev JsNumber := Option ℚ

/-- The operator `+` on numbers. -/
def JsNumber.add : JsNumber → JsNumber → JsNumber
  | some a, some b => some (a + b)
  | _, _ => none

/-- The operator `-` on numbers. -/
def JsNumber.sub : JsNumber → JsNumber → JsNumber
  | some a, some b => some (a - b)
  | _, _ => none

/-! ## `src/app.jsx` -/

namespace App

/-- An entry `{ category, value }` of the `expenses` state.  Every value the component
stores comes from `parseValue`, hence is a finite number. -/
structure Expense where
  category : JsString
  value : ℚ
  deriving DecidableEq, Repr

/-- The state of the `App` component that the handlers read and write. -/
structure State where
  messages : List (ChatMessage ℚ)
  input : JsString
  expenses : List Expense
  editingIndex : Option Int
  editValue : JsString
  balance : ℚ
  deriving DecidableEq, Repr

/-- The initialiser of the `balance` state:
`try { return JSON.parse(localStorage.getItem('balance')) ?? 2000 } catch { return 2000 }`. -/
def initialBalance (item : StoredItem) : JsValue :=
  match parseStored item with
  | .ok v => if v = .null then .number 2000 else v
  | .error _ => .number 2000

/-- The memo `totalExpenses`: `expenses.reduce((s, e) => s + Number(e.value || 0), 0)`. -/
def totalExpenses (expenses : List Expense) : ℚ :=
  expenses.foldl (fun s e => s + e.value) 0

/-- The method `Map.prototype.get` on a map kept as its entries in insertion order. -/
def mapGet : List (JsString × ℚ) → JsString → Option ℚ
  | [], _ => none
  | (k, v) :: rest, key => if k = key then some v else mapGet rest key

/-- The method `Map.prototype.set`: the value of an existing key is replaced where the key
stands, a new key is added at the end. -/
def mapSet : List (JsString × ℚ) → JsString → ℚ → List (JsString × ℚ)
  | [], key, value => [(key, value)]
  | (k, v) :: rest, key, value =>
    if k = key then (k, value) :: rest else (k, v) :: mapSet rest key value

/-- The memo `aggregated`: the loop fills a `Map` from category to the running sum, and
`Array.from` lists its entries in insertion order.  The parameter `plus` is the `+` of line
36: `doubleAdd` for IEEE doubles, the addition of `ℚ` for exact arithmetic. -/
def aggregated (plus : ℚ → ℚ → ℚ) (expenses : List Expense) : List Expense :=
  let map := expenses.foldl
    (fun map e => mapSet map e.category (plus ((mapGet map e.category).getD 0) e.value)) []
  map.map (fun entry => { category := entry.1, value := entry.2 })

/-- The helper `parseValue`; `none` is the argument `undefined`. -/
def parseValue (raw : Option JsString) : ℚ :=
  match raw with
  | none => 0
  | some r =>
    if r.isEmpty then 0
    else
      let n := replaceComma r
      match parseFloat n with
      | some f => f
      | none => 0

/-- The handler `handleSend`. -/
def handleSend (toLowerCase : JsString → JsString) (s : State) : State :=
  if (trim s.input).isEmpty then s
  else
    let text := trim s.input
    let newMessages := s.messages ++ [ChatMessage.user text]
    let lower := toLowerCase text
    if includes lower "gastei".toList then
      let valueMatch := matchDecimal text
      let value := parseValue valueMatch
      let parts := splitWhitespace text
      let category := parts.getLastD []
      { s with
        expenses := s.expenses ++ [{ category := category, value := value }]
        balance := s.balance - value
        messages := newMessages ++ [ChatMessage.bot (BotReply.recorded value)]
        input := [] }
    else if includes lower "resumo".toList then
      { s with
        messages := newMessages ++
          [ChatMessage.bot (BotReply.summary (totalExpenses s.expenses) s.balance)]
        input := [] }
    else if includes lower "meta".toList then
      { s with messages := newMessages ++ [ChatMessage.bot BotReply.goal], input := [] }
    else if includes lower "dica".toList then
      { s with messages := newMessages ++ [ChatMessage.bot BotReply.tip], input := [] }
    else
      { s with messages := newMessages ++ [ChatMessage.bot BotReply.learning], input := [] }

/-- The handler `handleDelete`.  It never throws: `deleted?.value || 0` is 0 when
`expenses[index]` is `undefined`. -/
def handleDelete (s : State) (index : Int) : Except JsError State :=
  let deleted := elementAt s.expenses index
  let amount : ℚ := match deleted with
    | some e => e.value
    | none => 0
  .ok { s with
    balance := s.balance + amount
    expenses := filterFrom (fun _ i => decide ((i : Int) ≠ index)) 0 s.expenses }

/-- The handler `handleSaveEdit`.  Reading `.value` of `expenses[editingIndex]` throws a
`TypeError` when that element is `undefined`, before any state is set. -/
def handleSaveEdit (s : State) : Except JsError State :=
  match s.editingIndex.bind (elementAt s.expenses) with
  | none => .error .typeError
  | some old =>
    let oldValue := old.value
    let newValue := parseValue (some s.editValue)
    let updated := mapFrom
      (fun e i => if some (i : Int) = s.editingIndex then { e with value := newValue } else e)
      0 s.expenses
    .ok { s with
      expenses := updated
      balance := s.balance + oldValue - newValue
      editingIndex := none
      editValue := [] }

/-- The events that change the ledger: sending the text typed into the input box, saving an
edit with the edit state the component holds at that moment, deleting a row. -/
inductive Action where
  | send (input : JsString)
  | saveEdit (editingIndex : Option Int) (editValue : JsString)
  | delete (index : Int)
  deriving DecidableEq, Repr

/-- One event: the handler it calls, on the state the event finds. -/
def step (toLowerCase : JsString → JsString) (s : State) : Action → Except JsError State
  | .send input => .ok (handleSend toLowerCase { s with input := input })
  | .saveEdit editingIndex editValue =>
    handleSaveEdit { s with editingIndex := editingIndex, editValue := editValue }
  | .delete index => handleDelete s index

/-- A sequence of events, stopped by the first handler that throws. -/
def run (toLowerCase : JsString → JsString) (s : State) : List Action → Except JsError State
  | [] => .ok s
  | a :: rest =>
    match step toLowerCase s a with
    | .ok next => run toLowerCase next rest
    | .error e => .error e

/-- Whether an index is a position of the list: a number `i` with `0 ≤ i < length`. -/
def inBounds {α : Type} (xs : List α) : Option Int → Bool
  | some i => decide (0 ≤ i) && decide (i < xs.length)
  | none => false

/-- Whether an event meets the precondition of its handler in state `s`: an edit is saved
with `editingIndex` inside the bounds of the list; sends and deletes have no precondition. -/
def Action.allowedIn (s : State) : Action → Bool
  | .send _ => true
  | .saveEdit editingIndex _ => inBounds s.expenses editingIndex
  | .delete _ => true

/-- Whether every event of the sequence meets its precondition in the state it is applied to. -/
def admissible (toLowerCase : JsString → JsString) : State → List Action → Bool
  | _, [] => true
  | s, a :: rest =>
    a.allowedIn s &&
      match step toLowerCase s a with
      | .ok next => admissible toLowerCase next rest
      | .error _ => true

/-- The sum of the values of the expenses in the list. -/
def sumValues (expenses : List Expense) : ℚ :=
  (expenses.map (fun e => e.value)).sum

end App

/-! ## `src/FinanceChat.js` -/

namespace FinanceChat

/-- An entry `{ category, value }` of the `expenses` state. -/
structure Expense where
  category : JsString
  value : JsNumber
  deriving DecidableEq, Repr

/-- The state of the `FinanceChat` component that `handleSend` and `handleDelete` read and
write. -/
structure State where
  messages : List (ChatMessage JsNumber)
  input : JsString
  expenses : List Expense
  balance : JsNumber
  deriving DecidableEq, Repr

/-- The initialiser of the `balance` state:
`JSON.parse(localStorage.getItem("balance")) || 2000`, with no `try` around it. -/
def initialBalance (item : StoredItem) : Except JsError JsValue :=
  match parseStored item with
  | .ok v => .ok (if v.truthy then v else .number 2000)
  | .error e => .error e

/-- The handler `handleSend`. -/
def handleSend (toLowerCase : JsString → JsString) (s : State) : State :=
  if (trim s.input).isEmpty then s
  else
    let newMessages := s.messages ++ [ChatMessage.user s.input]
    if includes (toLowerCase s.input) "gastei".toList then
      let valueMatch := matchDigits s.input
      let value : JsNumber := match valueMatch with
        | some m => parseFloat m
        | none => some 0
      let category := (splitSpace s.input).getLastD []
      { s with
        expenses := s.expenses ++ [{ category := category, value := value }]
        balance := JsNumber.sub s.balance value
        messages := newMessages ++ [ChatMessage.bot (BotReply.recorded value)]
        input := [] }
    else if includes (toLowerCase s.input) "resumo".toList then
      let total := s.expenses.foldl (fun sum e => JsNumber.add sum e.value) (some 0)
      { s with
        messages := newMessages ++ [ChatMessage.bot (BotReply.summary total s.balance)]
        input := [] }
    else if includes (toLowerCase s.input) "meta".toList then
      { s with messages := newMessages ++ [ChatMessage.bot BotReply.goal], input := [] }
    else if includes (toLowerCase s.input) "dica".toList then
      { s with messages := newMessages ++ [ChatMessage.bot BotReply.tip], input := [] }
    else
      { s with messages := newMessages ++ [ChatMessage.bot BotReply.learning], input := [] }

/-- The handler `handleDelete`.  When `expenses[index]` is `undefined`, reading
`deleted.value` in the updater of `setBalance` throws a `TypeError` and no new state is
rendered. -/
def handleDelete (s : State) (index : Int) : Except JsError State :=
  match elementAt s.expenses index with
  | none => .error .typeError
  | some deleted =>
    .ok { s with
      balance := JsNumber.add s.balance deleted.value
      expenses := filterFrom (fun _ i => decide ((i : Int) ≠ index)) 0 s.expenses }

end FinanceChat

/-! ## Definitions used to state the properties -/

/-- The loop of `aggregated`: the `Map` after the expenses of the list have been added. -/
def App.categoryTotals (plus : ℚ → ℚ → ℚ) (expenses : List App.Expense) :
    List (JsString × ℚ) :=
  expenses.foldl
    (fun map e =>
      App.mapSet map e.category (plus ((App.mapGet map e.category).getD 0) e.value)) []

/-- The sum of the values of the expenses of category `c`, added from left to right with
`plus`, starting from 0. -/
def App.categorySum (plus : ℚ → ℚ → ℚ) (c : JsString) (expenses : List App.Expense) : ℚ :=
  (expenses.filter (fun e => decide (e.category = c))).foldl (fun s e => plus s e.value) 0

/-- Three expenses as `handleSend` records them for the amounts 0.1, 0.1 and 0.25: the
double nearest to 0.1 is 3602879701896397 / 2 ^ 55. -/
def App.smallExpenses : List App.Expense :=
  [⟨"a".toList, 3602879701896397 / 36028797018963968⟩,
   ⟨"b".toList, 3602879701896397 / 36028797018963968⟩,
   ⟨"a".toList, 1 / 4⟩]

/-- The position of the first occurrence of the category `c` in the list `cats` (the length
of `cats` when `c` does not occur in it). -/
def firstIndex (c : JsString) (cats : List JsString) : Nat :=
  cats.findIdx (fun k => decide (k = c))

/-- The classification the specification states, for the lowercased text `lower` and the
reply `r` the bot gives: the keywords are tried in the order "gastei", "resumo", "meta",
"dica", the first one found decides, and the static reply is given when none is found. -/
def SpecClassification {ν : Type} (lower : JsString) (r : BotReply ν) : Prop :=
  (r.intent = Intent.recordExpense ↔ includes lower "gastei".toList = true) ∧
  (r.intent = Intent.summary ↔
    includes lower "resumo".toList = true ∧ includes lower "gastei".toList = false) ∧
  (r.intent = Intent.goal ↔
    includes lower "meta".toList = true ∧ includes lower "gastei".toList = false ∧
      includes lower "resumo".toList = false) ∧
  (r.intent = Intent.tip ↔
    includes lower "dica".toList = true ∧ includes lower "gastei".toList = false ∧
      includes lower "resumo".toList = false ∧ includes lower "meta".toList = false) ∧
  (r = BotReply.learning ↔
    includes lower "gastei".toList = false ∧ includes lower "resumo".toList = false ∧
      includes lower "meta".toList = false ∧ includes lower "dica".toList = false)

/-- An empty ledger with the default balance 2000. -/
def App.emptyLedger : App.State :=
  { messages := [], input := [], expenses := [], editingIndex := none, editValue := [],
    balance := 2000 }

/-- A ledger of `App` with two expenses, used as a concrete input. -/
def App.twoExpenses : App.State :=
  { messages := [], input := [],
    expenses := [⟨"mercado".toList, 50⟩, ⟨"lazer".toList, 30⟩],
    editingIndex := none, editValue := [], balance := 1920 }

/-- A ledger of `FinanceChat` with two expenses, used as a concrete input. -/
def FinanceChat.twoExpenses : FinanceChat.State :=
  { messages := [], input := [],
    expenses := [⟨"mercado".toList, some 50⟩, ⟨"lazer".toList, some 30⟩],
    balance := some 1920 }

/-- A session: three expenses are recorded, the first is edited from 120 to 100,5, the
second is deleted, and a delete with an index outside the list follows. -/
def App.session : List App.Action :=
  [.send "gastei 120 mercado".toList, .send "Gastei 30,25 no lazer".toList,
   .send "gastei 7 cafe".toList, .saveEdit (some 0) "100.5".toList, .delete 1, .delete 5]

/-! ## Lemmas on the list primitives -/

theorem filterFrom_of_lt {α : Type} (index : Int) (xs : List α) (k : Nat) (h : index < k) :
    filterFrom (fun _ i => decide ((i : Int) ≠ index)) k xs = xs := by
  induction xs generalizing k with
  | nil => rfl
  | cons x xs ih =>
    have hne : decide ((k : Int) ≠ index) = true := decide_eq_true (by omega)
    have hk : index < ((k + 1 : Nat) : Int) := by omega
    simp only [filterFrom]
    rw [if_pos hne, ih (k + 1) hk]

theorem filterFrom_eq_eraseIdx {α : Type} (n : Nat) (xs : List α) (k : Nat) (h : k ≤ n) :
    filterFrom (fun _ i => decide ((i : Int) ≠ (n : Int))) k xs = xs.eraseIdx (n - k) := by
  induction xs generalizing k with
  | nil => rfl
  | cons x xs ih =>
    simp only [filterFrom]
    rcases Nat.eq_or_lt_of_le h with heq | hlt
    · subst heq
      have hk : ((k : Nat) : Int) < ((k + 1 : Nat) : Int) := by omega
      have hne : ¬ decide (((k : Nat) : Int) ≠ (k : Int)) = true := by simp
      rw [if_neg hne, filterFrom_of_lt (k : Int) xs (k + 1) hk]
      simp
    · have hne : decide ((k : Int) ≠ (n : Int)) = true := decide_eq_true (by omega)
      have hsub : n - k = (n - (k + 1)) + 1 := by omega
      rw [if_pos hne, hsub, List.eraseIdx_cons_succ, ih (k + 1) hlt]

/-- The filter of the delete handlers removes position `index` when that is a position of
the list and nothing otherwise. -/
theorem filterFrom_index {α : Type} (xs : List α) (index : Int) :
    filterFrom (fun _ i => decide ((i : Int) ≠ index)) 0 xs
      = if 0 ≤ index then xs.eraseIdx index.toNat else xs := by
  split
  · rename_i h
    obtain ⟨n, rfl⟩ := Int.eq_ofNat_of_zero_le h
    simpa using filterFrom_eq_eraseIdx n xs 0 (Nat.zero_le n)
  · rename_i h
    exact filterFrom_of_lt index xs 0 (by simpa using h)

theorem elementAt_of_inBounds {α : Type} (xs : List α) (i : Int) (h0 : 0 ≤ i)
    (h1 : i < xs.length) :
    ∃ h : i.toNat < xs.length, elementAt xs i = some (xs[i.toNat]) := by
  have h : i.toNat < xs.length := by omega
  exact ⟨h, by simp [elementAt, h0, h]⟩

theorem elementAt_of_not_inBounds {α : Type} (xs : List α) (i : Int)
    (h : i < 0 ∨ (xs.length : Int) ≤ i) : elementAt xs i = none := by
  unfold elementAt
  split
  · rw [List.getElem?_eq_none]
    omega
  · rfl

theorem length_mapFrom {α β : Type} (f : α → Nat → β) (xs : List α) (k : Nat) :
    (mapFrom f k xs).length = xs.length := by
  induction xs generalizing k with
  | nil => rfl
  | cons x xs ih => simp [mapFrom, ih (k + 1)]

theorem getElem?_mapFrom {α β : Type} (f : α → Nat → β) (xs : List α) (k j : Nat) :
    (mapFrom f k xs)[j]? = (xs[j]?).map (fun x => f x (k + j)) := by
  induction xs generalizing k j with
  | nil => simp [mapFrom]
  | cons x xs ih =>
    cases j with
    | zero => simp [mapFrom]
    | succ j =>
      simp only [mapFrom, List.getElem?_cons_succ, ih (k + 1) j]
      have : k + 1 + j = k + (j + 1) := by omega
      rw [this]

/-- The `map` of `handleSaveEdit` replaces the entry at position `n` and keeps the others. -/
theorem mapFrom_update {α : Type} (update : α → α) (xs : List α) (n : Nat)
    (h : n < xs.length) :
    mapFrom (fun e i => if some (i : Int) = some (n : Int) then update e else e) 0 xs
      = xs.set n (update xs[n]) := by
  apply List.ext_getElem?
  intro j
  rw [getElem?_mapFrom, List.getElem?_set]
  by_cases hj : n = j
  · subst hj
    simp [h]
  · have hne : ¬ (some ((0 + j : Nat) : Int) = some (n : Int)) := by
      intro hc
      have := Option.some.inj hc
      omega
    simp only [hne, if_false, hj]
    cases xs[j]? <;> rfl

/-- The rounding and the overflow of `parseFloat`: "0.1" is read as the double nearest to
one tenth; "1e400" is not finite, so `parseValue` of `src/app.jsx` turns it into 0. -/
theorem parseFloat_rounds_and_overflows :
    parseFloat "0.1".toList = some (3602879701896397 / 36028797018963968) ∧
    parseFloat "1e400".toList = none ∧
    App.parseValue (some "1e400".toList) = 0 := by
  refine ⟨?_, ?_, ?_⟩ <;> decide!

/-! ## Delete step -/

/-- C4: for an index `i` inside the bounds of the expense list, `handleDelete(i)` returns
normally; the new list is the old one without the entry at position `i` (the entries before
`i`, then the entries after `i`, so one entry fewer), the balance grows by the value of the
removed entry and nothing else changes.  This holds for `handleDelete` of `src/app.jsx`
(state `sa`, index `i`) and of `src/FinanceChat.js` (state `sf`, index `j`). -/
theorem delete_step_removes_entry (sa : App.State) (i : Int) (sf : FinanceChat.State) (j : Int)
    (hi0 : 0 ≤ i) (hi1 : i < sa.expenses.length) (hj0 : 0 ≤ j) (hj1 : j < sf.expenses.length) :
    (∃ removed, elementAt sa.expenses i = some removed ∧
      App.handleDelete sa i = .ok { sa with
        expenses := sa.expenses.take i.toNat ++ sa.expenses.drop (i.toNat + 1)
        balance := sa.balance + removed.value } ∧
      (sa.expenses.take i.toNat ++ sa.expenses.drop (i.toNat + 1)).length + 1
        = sa.expenses.length) ∧
    (∃ removed, elementAt sf.expenses j = some removed ∧
      FinanceChat.handleDelete sf j = .ok { sf with
        expenses := sf.expenses.take j.toNat ++ sf.expenses.drop (j.toNat + 1)
        balance := JsNumber.add sf.balance removed.value } ∧
      (sf.expenses.take j.toNat ++ sf.expenses.drop (j.toNat + 1)).length + 1
        = sf.expenses.length) := by
  obtain ⟨hi, hai⟩ := elementAt_of_inBounds sa.expenses i hi0 hi1
  obtain ⟨hj, hfj⟩ := elementAt_of_inBounds sf.expenses j hj0 hj1
  refine ⟨⟨_, hai, ?_, ?_⟩, ⟨_, hfj, ?_, ?_⟩⟩
  · simp only [App.handleDelete, hai, filterFrom_index, if_pos hi0,
      List.eraseIdx_eq_take_drop_succ]
  · rw [← List.eraseIdx_eq_take_drop_succ, List.length_eraseIdx_of_lt hi]
    omega
  · simp only [FinanceChat.handleDelete, hfj, filterFrom_index, if_pos hj0,
      List.eraseIdx_eq_take_drop_succ]
  · rw [← List.eraseIdx_eq_take_drop_succ, List.length_eraseIdx_of_lt hj]
    omega

/-- Deleting row 0 of the two-expense ledgers: `lazer` is left and the balance 1920 becomes
1970. -/
theorem delete_step_removes_entry_witness :
    App.handleDelete App.twoExpenses 0
      = .ok { App.twoExpenses with expenses := [⟨"lazer".toList, 30⟩], balance := 1970 } ∧
    FinanceChat.handleDelete FinanceChat.twoExpenses 0
      = .ok { FinanceChat.twoExpenses with
          expenses := [⟨"lazer".toList, some 30⟩], balance := some 1970 } := by
  have h := delete_step_removes_entry App.twoExpenses 0 FinanceChat.twoExpenses 0
    (by decide) (by decide) (by decide) (by decide)
  obtain ⟨⟨ra, hra, ha, _⟩, ⟨rf, hrf, hf, _⟩⟩ := h
  have hra' : ra = ⟨"mercado".toList, 50⟩ := by
    have : elementAt App.twoExpenses.expenses 0 = some ⟨"mercado".toList, 50⟩ := by decide
    rw [this] at hra
    exact (Option.some.inj hra).symm
  have hrf' : rf = ⟨"mercado".toList, some 50⟩ := by
    have : elementAt FinanceChat.twoExpenses.expenses 0 = some ⟨"mercado".toList, some 50⟩ := by
      decide
    rw [this] at hrf
    exact (Option.some.inj hrf).symm
  subst hra' hrf'
  refine ⟨ha.trans (congrArg Except.ok ?_), hf.trans (congrArg Except.ok ?_)⟩
  · decide!
  · decide!

/-! ## Edit step -/

/-- C3: when `editingIndex` is a position `i` of the expense list, `handleSaveEdit` returns
normally with `newValue = parseValue(editValue)`; the new list is the old one with the entry
at position `i` replaced by `{ category: its category, value: newValue }`, so it has the same
length, entry `i` has the original category and the value `newValue`, and every other entry
is unchanged; the balance becomes `balance + oldValue - newValue`, where `oldValue` is the
value entry `i` had before. -/
theorem edit_step_replaces_value (s : App.State) (i : Int)
    (hidx : s.editingIndex = some i) (h0 : 0 ≤ i) (h1 : i < s.expenses.length) :
    ∃ old updated, elementAt s.expenses i = some old ∧
      App.handleSaveEdit s = .ok { s with
        expenses := updated
        balance := s.balance + old.value - App.parseValue (some s.editValue)
        editingIndex := none
        editValue := [] } ∧
      updated.length = s.expenses.length ∧
      updated[i.toNat]? = some ⟨old.category, App.parseValue (some s.editValue)⟩ ∧
      ∀ j : Nat, j ≠ i.toNat → updated[j]? = s.expenses[j]? := by
  obtain ⟨hi, hold⟩ := elementAt_of_inBounds s.expenses i h0 h1
  obtain ⟨n, rfl⟩ := Int.eq_ofNat_of_zero_le h0
  have hn : n < s.expenses.length := by simpa using hi
  refine ⟨s.expenses[n], s.expenses.set n
    { s.expenses[n] with value := App.parseValue (some s.editValue) }, ?_, ?_, ?_, ?_, ?_⟩
  · simpa using hold
  · have hb : s.editingIndex.bind (elementAt s.expenses) = some s.expenses[n] := by
      rw [hidx]
      simpa using hold
    have hm := mapFrom_update
      (fun e : App.Expense => { e with value := App.parseValue (some s.editValue) })
      s.expenses n hn
    unfold App.handleSaveEdit
    rw [hb]
    simp only [hidx, hm]
  · simp
  · simp [hn]
  · intro j hj
    have hne : n ≠ j := fun hc => hj (by simp [hc])
    simp [List.getElem?_set, hne]

/-- Saving the edit `70` on row 0 of the two-expense ledger, which holds 50: the row keeps
its category, the other row is unchanged, and the balance 1920 drops by 20 to 1900. -/
theorem edit_step_replaces_value_witness :
    App.handleSaveEdit { App.twoExpenses with editingIndex := some 0, editValue := "70".toList }
      = .ok { App.twoExpenses with
          expenses := [⟨"mercado".toList, 70⟩, ⟨"lazer".toList, 30⟩], balance := 1900 } := by
  obtain ⟨old, updated, hold, hok, hlen, hnew, hrest⟩ := edit_step_replaces_value
    { App.twoExpenses with editingIndex := some 0, editValue := "70".toList } 0
    rfl (by decide) (by decide)
  have hold' : old = ⟨"mercado".toList, 50⟩ := by
    have : elementAt App.twoExpenses.expenses 0 = some ⟨"mercado".toList, 50⟩ := by decide
    exact (Option.some.inj (hold.symm.trans this))
  have hv : App.parseValue (some "70".toList) = 70 := by decide!
  have h0 : updated[0]? = some ⟨"mercado".toList, 70⟩ := by
    rw [hold', hv] at hnew
    exact hnew
  have h1 : updated[1]? = some ⟨"lazer".toList, 30⟩ := by
    rw [hrest 1 (by decide)]
    rfl
  have hupd : updated = [⟨"mercado".toList, 70⟩, ⟨"lazer".toList, 30⟩] := by
    match updated, hlen, h0, h1 with
    | [a, b], _, h0, h1 =>
      simp only [List.getElem?_cons_zero, List.getElem?_cons_succ, Option.some.injEq] at h0 h1
      rw [h0, h1]
  rw [hok, hupd, hold']
  refine congrArg Except.ok ?_
  decide!

/-! ## Ledger conservation -/

theorem sumValues_append (xs ys : List App.Expense) :
    App.sumValues (xs ++ ys) = App.sumValues xs + App.sumValues ys := by
  simp [App.sumValues]

theorem sumValues_eraseIdx (xs : List App.Expense) (n : Nat) :
    App.sumValues (xs.eraseIdx n)
      + (match xs[n]? with
        | some e => e.value
        | none => 0) = App.sumValues xs := by
  induction xs generalizing n with
  | nil => simp [App.sumValues]
  | cons x xs ih =>
    cases n with
    | zero =>
      simp only [List.eraseIdx_cons_zero, List.getElem?_cons_zero, App.sumValues,
        List.map_cons, List.sum_cons]
      ring
    | succ n =>
      have h := ih n
      simp only [List.eraseIdx_cons_succ, List.getElem?_cons_succ, App.sumValues,
        List.map_cons, List.sum_cons] at h ⊢
      rw [← h]
      ring

theorem sumValues_set (xs : List App.Expense) (n : Nat) (h : n < xs.length)
    (e : App.Expense) :
    App.sumValues (xs.set n e) = App.sumValues xs - xs[n].value + e.value := by
  induction xs generalizing n with
  | nil => simp at h
  | cons x xs ih =>
    cases n with
    | zero =>
      simp only [List.set_cons_zero, App.sumValues, List.map_cons, List.sum_cons,
        List.getElem_cons_zero]
      ring
    | succ n =>
      have hn : n < xs.length := by simpa using h
      have h2 := ih n hn
      simp only [List.set_cons_succ, App.sumValues, List.map_cons, List.sum_cons,
        List.getElem_cons_succ] at h2 ⊢
      rw [h2]
      ring

/-- The handler `handleSend` keeps `balance + sum of the values`, whatever the text. -/
theorem handleSend_conserves (toLowerCase : JsString → JsString) (s : App.State) :
    (App.handleSend toLowerCase s).balance + App.sumValues (App.handleSend toLowerCase s).expenses
      = s.balance + App.sumValues s.expenses := by
  unfold App.handleSend
  split
  · rfl
  · simp only []
    split
    · simp only [sumValues_append]
      simp [App.sumValues]
    · split
      · rfl
      · split
        · rfl
        · split <;> rfl

/-- The handler `handleDelete` returns normally and keeps `balance + sum of the values`,
whatever the index. -/
theorem handleDelete_conserves (s : App.State) (index : Int) :
    ∃ next, App.handleDelete s index = .ok next ∧
      next.balance + App.sumValues next.expenses = s.balance + App.sumValues s.expenses := by
  refine ⟨_, rfl, ?_⟩
  simp only [filterFrom_index, elementAt]
  by_cases h0 : 0 ≤ index
  · have h := sumValues_eraseIdx s.expenses index.toNat
    simp only [if_pos h0]
    rw [← h]
    ring
  · simp only [if_neg h0]
    ring

/-- The handler `handleSaveEdit` returns normally and keeps `balance + sum of the values`
when `editingIndex` is inside the bounds of the list. -/
theorem handleSaveEdit_conserves (s : App.State)
    (h : App.inBounds s.expenses s.editingIndex = true) :
    ∃ next, App.handleSaveEdit s = .ok next ∧
      next.balance + App.sumValues next.expenses = s.balance + App.sumValues s.expenses := by
  cases hidx : s.editingIndex with
  | none => simp [App.inBounds, hidx] at h
  | some i =>
    rw [hidx] at h
    simp only [App.inBounds, Bool.and_eq_true, decide_eq_true_eq] at h
    obtain ⟨hi, hold⟩ := elementAt_of_inBounds s.expenses i h.1 h.2
    obtain ⟨n, rfl⟩ := Int.eq_ofNat_of_zero_le h.1
    have hn : n < s.expenses.length := by simpa using hi
    have hb : s.editingIndex.bind (elementAt s.expenses) = some s.expenses[n] := by
      rw [hidx]
      simpa using hold
    have hm := mapFrom_update
      (fun e : App.Expense => { e with value := App.parseValue (some s.editValue) })
      s.expenses n hn
    refine ⟨{ s with
      expenses := s.expenses.set n
        { s.expenses[n] with value := App.parseValue (some s.editValue) }
      balance := s.balance + s.expenses[n].value - App.parseValue (some s.editValue)
      editingIndex := none
      editValue := [] }, ?_, ?_⟩
    · unfold App.handleSaveEdit
      rw [hb]
      simp only [hidx, hm]
    · simp only [sumValues_set s.expenses n hn]
      ring

/-- An event that meets its precondition returns normally and keeps
`balance + sum of the values`. -/
theorem step_conserves (toLowerCase : JsString → JsString) (s : App.State) (a : App.Action)
    (h : a.allowedIn s = true) :
    ∃ next, App.step toLowerCase s a = .ok next ∧
      next.balance + App.sumValues next.expenses = s.balance + App.sumValues s.expenses := by
  cases a with
  | send input =>
    exact ⟨_, rfl, handleSend_conserves toLowerCase { s with input := input }⟩
  | saveEdit editingIndex editValue =>
    exact handleSaveEdit_conserves
      { s with editingIndex := editingIndex, editValue := editValue } h
  | delete index => exact handleDelete_conserves s index

theorem run_conserves (toLowerCase : JsString → JsString) (actions : List App.Action)
    (s : App.State) (h : App.admissible toLowerCase s actions = true) :
    ∃ final, App.run toLowerCase s actions = .ok final ∧
      final.balance + App.sumValues final.expenses = s.balance + App.sumValues s.expenses := by
  induction actions generalizing s with
  | nil => exact ⟨s, rfl, rfl⟩
  | cons a rest ih =>
    simp only [App.admissible, Bool.and_eq_true] at h
    obtain ⟨next, hstep, hnext⟩ := step_conserves toLowerCase s a h.1
    have hrest : App.admissible toLowerCase next rest = true := by
      have h2 := h.2
      rw [hstep] at h2
      exact h2
    obtain ⟨final, hrun, hfinal⟩ := ih next hrest
    refine ⟨final, ?_, hfinal.trans hnext⟩
    simp only [App.run, hstep]
    exact hrun

/-- C1: ledger conservation of `src/app.jsx`.  Take any sequence of sends (of any text, so in
particular of texts containing "gastei"), saved edits and deletes (with any index) in which
every edit is saved with `editingIndex` inside the bounds of the list at that moment.  Then
no handler throws, and the final state has the same `balance + sum(expenses[].value)` as the
initial one; when the initial expense list is empty and the initial balance is `B0`, the
final balance is `B0` minus the sum of the values of the expenses in the final list. -/
theorem ledger_conservation (toLowerCase : JsString → JsString) (s0 : App.State)
    (actions : List App.Action) (h : App.admissible toLowerCase s0 actions = true) :
    ∃ final, App.run toLowerCase s0 actions = .ok final ∧
      final.balance + App.sumValues final.expenses
        = s0.balance + App.sumValues s0.expenses ∧
      (s0.expenses = [] → final.balance = s0.balance - App.sumValues final.expenses) := by
  obtain ⟨final, hrun, hsum⟩ := run_conserves toLowerCase actions s0 h
  refine ⟨final, hrun, hsum, ?_⟩
  intro hempty
  rw [hempty] at hsum
  have hnil : App.sumValues [] = 0 := rfl
  rw [hnil] at hsum
  linarith

/-- The session above on the empty ledger: two expenses of total 107,5 are left and the
balance is 2000 - 107,5 = 1892,5. -/
theorem ledger_conservation_witness :
    ∃ final, App.run (List.map Char.toLower) App.emptyLedger App.session = .ok final ∧
      final.expenses = [⟨"mercado".toList, 201 / 2⟩, ⟨"cafe".toList, 7⟩] ∧
      final.balance = 3785 / 2 ∧
      final.balance = App.emptyLedger.balance - App.sumValues final.expenses := by
  obtain ⟨final, hrun, _, hempty⟩ := ledger_conservation (List.map Char.toLower)
    App.emptyLedger App.session (by decide!)
  have hval : App.run (List.map Char.toLower) App.emptyLedger App.session
      = .ok { App.emptyLedger with
          messages := [.user "gastei 120 mercado".toList, .bot (.recorded 120),
            .user "Gastei 30,25 no lazer".toList, .bot (.recorded (121 / 4)),
            .user "gastei 7 cafe".toList, .bot (.recorded 7)]
          expenses := [⟨"mercado".toList, 201 / 2⟩, ⟨"cafe".toList, 7⟩]
          balance := 3785 / 2 } := by
    decide!
  have hfinal := Except.ok.inj (hrun.symm.trans hval)
  exact ⟨final, hrun, by rw [hfinal], by rw [hfinal], hempty rfl⟩

/-! ## Record-expense step -/

/-- C2: for a non-blank input whose lowercased text contains "gastei", `handleSend` appends
one entry `{ category, value }` to the expense list (the earlier entries are kept, in the same
order, and the new entry is last) and lowers the balance by `value`, where `value` and
`category` are the fields the handler extracts from the text.  This holds for `handleSend`
of `src/app.jsx` (state `sa`, which extracts from the trimmed text with
`/([0-9]+([\.,][0-9]+)?)/`, `parseValue` and `split(/\s+/)`) and of `src/FinanceChat.js`
(state `sf`, which extracts from the raw input with `/(\d+)/`, `parseFloat` and
`split(" ")`). -/
theorem record_expense_step (toLowerCase : JsString → JsString)
    (sa : App.State) (sf : FinanceChat.State)
    (ha : trim sa.input ≠ []) (hga : includes (toLowerCase (trim sa.input)) "gastei".toList = true)
    (hf : trim sf.input ≠ []) (hgf : includes (toLowerCase sf.input) "gastei".toList = true) :
    ((App.handleSend toLowerCase sa).expenses
        = sa.expenses ++
          [{ category := (splitWhitespace (trim sa.input)).getLastD []
             value := App.parseValue (matchDecimal (trim sa.input)) }] ∧
      (App.handleSend toLowerCase sa).balance
        = sa.balance - App.parseValue (matchDecimal (trim sa.input))) ∧
    ((FinanceChat.handleSend toLowerCase sf).expenses
        = sf.expenses ++
          [{ category := (splitSpace sf.input).getLastD []
             value := match matchDigits sf.input with
               | some m => parseFloat m
               | none => some 0 }] ∧
      (FinanceChat.handleSend toLowerCase sf).balance
        = JsNumber.sub sf.balance
          (match matchDigits sf.input with
            | some m => parseFloat m
            | none => some 0)) := by
  have ha' : (trim sa.input).isEmpty = false := by
    cases h : trim sa.input with
    | nil => exact absurd h ha
    | cons c cs => rfl
  have hf' : (trim sf.input).isEmpty = false := by
    cases h : trim sf.input with
    | nil => exact absurd h hf
    | cons c cs => rfl
  refine ⟨⟨?_, ?_⟩, ⟨?_, ?_⟩⟩
  · simp only [App.handleSend, ha', hga, if_true, Bool.false_eq_true, if_false]
  · simp only [App.handleSend, ha', hga, if_true, Bool.false_eq_true, if_false]
  · simp only [FinanceChat.handleSend, hf', hgf, if_true, Bool.false_eq_true, if_false]
  · simp only [FinanceChat.handleSend, hf', hgf, if_true, Bool.false_eq_true, if_false]

/-- The input "gastei 120 mercado" on a ledger with balance 2000: the new last entry is
`{ category: "mercado", value: 120 }` and the balance becomes 1880, in both components. -/
theorem record_expense_step_witness :
    ((App.handleSend (List.map Char.toLower)
          { App.twoExpenses with input := "gastei 120 mercado".toList, balance := 2000 }).expenses
        = App.twoExpenses.expenses ++ [⟨"mercado".toList, 120⟩] ∧
      (App.handleSend (List.map Char.toLower)
          { App.twoExpenses with input := "gastei 120 mercado".toList, balance := 2000 }).balance
        = 1880) ∧
    ((FinanceChat.handleSend (List.map Char.toLower)
          { FinanceChat.twoExpenses with
            input := "gastei 120 mercado".toList, balance := some 2000 }).expenses
        = FinanceChat.twoExpenses.expenses ++ [⟨"mercado".toList, some 120⟩] ∧
      (FinanceChat.handleSend (List.map Char.toLower)
          { FinanceChat.twoExpenses with
            input := "gastei 120 mercado".toList, balance := some 2000 }).balance
        = some 1880) := by
  obtain ⟨⟨hae, hab⟩, ⟨hfe, hfb⟩⟩ := record_expense_step (List.map Char.toLower)
    { App.twoExpenses with input := "gastei 120 mercado".toList, balance := 2000 }
    { FinanceChat.twoExpenses with input := "gastei 120 mercado".toList, balance := some 2000 }
    (by decide) (by decide) (by decide) (by decide)
  refine ⟨⟨hae.trans ?_, hab.trans ?_⟩, ⟨hfe.trans ?_, hfb.trans ?_⟩⟩
  · decide!
  · decide!
  · decide!
  · decide!

/-! ## Intent classification -/

/-- C8: for a non-blank input, `handleSend` adds the user message and one bot reply, and the
reply follows the fixed order of the keyword tests on the lowercased text: record-expense
iff it contains "gastei"; summary iff it contains "resumo" and not "gastei"; goal iff it
contains "meta" and neither "gastei" nor "resumo"; tip iff it contains "dica" and none of the
other three; the static 'Ainda estou aprendendo...' reply iff it contains none of the four.
Unless the intent is record-expense, the expense list and the balance are unchanged.  This
holds for `src/app.jsx` (state `sa`, lowercased trimmed text) and for `src/FinanceChat.js`
(state `sf`, lowercased raw input). -/
theorem intent_classification_order (toLowerCase : JsString → JsString)
    (sa : App.State) (sf : FinanceChat.State)
    (ha : trim sa.input ≠ []) (hf : trim sf.input ≠ []) :
    (∃ r, (App.handleSend toLowerCase sa).messages
          = sa.messages ++ [ChatMessage.user (trim sa.input)] ++ [ChatMessage.bot r] ∧
        SpecClassification (toLowerCase (trim sa.input)) r ∧
        (r.intent ≠ Intent.recordExpense →
          (App.handleSend toLowerCase sa).expenses = sa.expenses ∧
          (App.handleSend toLowerCase sa).balance = sa.balance)) ∧
    (∃ r, (FinanceChat.handleSend toLowerCase sf).messages
          = sf.messages ++ [ChatMessage.user sf.input] ++ [ChatMessage.bot r] ∧
        SpecClassification (toLowerCase sf.input) r ∧
        (r.intent ≠ Intent.recordExpense →
          (FinanceChat.handleSend toLowerCase sf).expenses = sf.expenses ∧
          (FinanceChat.handleSend toLowerCase sf).balance = sf.balance)) := by
  have ha' : (trim sa.input).isEmpty = false := by
    cases h : trim sa.input with
    | nil => exact absurd h ha
    | cons c cs => rfl
  have hf' : (trim sf.input).isEmpty = false := by
    cases h : trim sf.input with
    | nil => exact absurd h hf
    | cons c cs => rfl
  constructor
  · cases hg : includes (toLowerCase (trim sa.input)) "gastei".toList <;>
    cases hr : includes (toLowerCase (trim sa.input)) "resumo".toList <;>
    cases hm : includes (toLowerCase (trim sa.input)) "meta".toList <;>
    cases hd : includes (toLowerCase (trim sa.input)) "dica".toList <;>
    simp only [App.handleSend, ha', hg, hr, hm, hd, if_true, Bool.false_eq_true, if_false] <;>
    exact ⟨_, rfl, by simp only [SpecClassification, BotReply.intent, hg, hr, hm, hd]; simp,
      by simp [BotReply.intent]⟩
  · cases hg : includes (toLowerCase sf.input) "gastei".toList <;>
    cases hr : includes (toLowerCase sf.input) "resumo".toList <;>
    cases hm : includes (toLowerCase sf.input) "meta".toList <;>
    cases hd : includes (toLowerCase sf.input) "dica".toList <;>
    simp only [FinanceChat.handleSend, hf', hg, hr, hm, hd, if_true, Bool.false_eq_true,
      if_false] <;>
    exact ⟨_, rfl, by simp only [SpecClassification, BotReply.intent, hg, hr, hm, hd]; simp,
      by simp [BotReply.intent]⟩

/-- The input "meta do resumo" contains "resumo" and "meta": both components answer with the
summary, and neither the expense list nor the balance changes. -/
theorem intent_classification_order_witness :
    (∃ r : BotReply ℚ, r.intent = Intent.summary ∧
      (App.handleSend (List.map Char.toLower)
          { App.twoExpenses with input := "Meta do resumo".toList }).messages
        = [ChatMessage.user "Meta do resumo".toList, ChatMessage.bot r] ∧
      (App.handleSend (List.map Char.toLower)
          { App.twoExpenses with input := "Meta do resumo".toList }).expenses
        = App.twoExpenses.expenses) ∧
    (∃ r : BotReply JsNumber, r.intent = Intent.summary ∧
      (FinanceChat.handleSend (List.map Char.toLower)
          { FinanceChat.twoExpenses with input := "Meta do resumo".toList }).messages
        = [ChatMessage.user "Meta do resumo".toList, ChatMessage.bot r] ∧
      (FinanceChat.handleSend (List.map Char.toLower)
          { FinanceChat.twoExpenses with input := "Meta do resumo".toList }).expenses
        = FinanceChat.twoExpenses.expenses) := by
  obtain ⟨⟨ra, hma, hca, hua⟩, ⟨rf, hmf, hcf, huf⟩⟩ :=
    intent_classification_order (List.map Char.toLower)
      { App.twoExpenses with input := "Meta do resumo".toList }
      { FinanceChat.twoExpenses with input := "Meta do resumo".toList }
      (by decide) (by decide)
  have hia : ra.intent = Intent.summary := hca.2.1.mpr ⟨by decide, by decide⟩
  have hif : rf.intent = Intent.summary := hcf.2.1.mpr ⟨by decide, by decide⟩
  refine ⟨⟨ra, hia, hma.trans ?_, (hua ?_).1⟩, ⟨rf, hif, hmf.trans ?_, (huf ?_).1⟩⟩
  · with_unfolding_all rfl
  · rw [hia]
    decide
  · with_unfolding_all rfl
  · rw [hif]
    decide

/-! ## Aggregation by category -/

theorem aggregated_eq_map (plus : ℚ → ℚ → ℚ) (expenses : List App.Expense) :
    App.aggregated plus expenses
      = (App.categoryTotals plus expenses).map (fun entry => ⟨entry.1, entry.2⟩) := rfl

theorem categoryTotals_concat (plus : ℚ → ℚ → ℚ) (xs : List App.Expense) (e : App.Expense) :
    App.categoryTotals plus (xs ++ [e])
      = App.mapSet (App.categoryTotals plus xs) e.category
          (plus ((App.mapGet (App.categoryTotals plus xs) e.category).getD 0) e.value) := by
  simp [App.categoryTotals, List.foldl_append]

theorem keys_mapSet (m : List (JsString × ℚ)) (k : JsString) (v : ℚ) :
    (App.mapSet m k v).map Prod.fst
      = if k ∈ m.map Prod.fst then m.map Prod.fst else m.map Prod.fst ++ [k] := by
  induction m with
  | nil => simp [App.mapSet]
  | cons entry rest ih =>
    obtain ⟨k0, v0⟩ := entry
    by_cases h : k0 = k
    · simp [App.mapSet, h]
    · have h' : ¬ k = k0 := fun hc => h hc.symm
      by_cases hm : k ∈ rest.map Prod.fst
      · simp only [App.mapSet, if_neg h, List.map_cons, ih, if_pos hm, List.mem_cons, hm,
          or_true, if_true]
      · simp only [App.mapSet, if_neg h, List.map_cons, ih, if_neg hm, List.mem_cons, hm,
          h', or_false, if_false, List.cons_append]

theorem mapGet_mapSet (m : List (JsString × ℚ)) (k c : JsString) (v : ℚ) :
    App.mapGet (App.mapSet m k v) c = if c = k then some v else App.mapGet m c := by
  induction m with
  | nil =>
    by_cases h : c = k
    · simp [App.mapSet, App.mapGet, h]
    · have h' : ¬ k = c := fun hc => h hc.symm
      simp [App.mapSet, App.mapGet, h, h']
  | cons entry rest ih =>
    obtain ⟨k0, v0⟩ := entry
    by_cases h : k0 = k
    · subst h
      by_cases hc : c = k0
      · simp [App.mapSet, App.mapGet, hc]
      · have hc' : ¬ k0 = c := fun h => hc h.symm
        simp [App.mapSet, App.mapGet, hc, hc']
    · by_cases hc : k0 = c
      · subst hc
        simp [App.mapSet, App.mapGet, h]
      · simp only [App.mapSet, if_neg h, App.mapGet, if_neg hc, ih]

theorem sum_mapSet (m : List (JsString × ℚ)) (k : JsString) (v : ℚ) :
    ((App.mapSet m k v).map Prod.snd).sum
      = (m.map Prod.snd).sum - (App.mapGet m k).getD 0 + v := by
  induction m with
  | nil => simp [App.mapSet, App.mapGet]
  | cons entry rest ih =>
    obtain ⟨k0, v0⟩ := entry
    by_cases h : k0 = k
    · simp only [App.mapSet, if_pos h, App.mapGet, List.map_cons, List.sum_cons,
        Option.getD_some]
      ring
    · simp only [App.mapSet, if_neg h, App.mapGet, List.map_cons, List.sum_cons, ih]
      ring

theorem mapGet_of_mem (m : List (JsString × ℚ)) (k : JsString) (v : ℚ)
    (hnodup : (m.map Prod.fst).Nodup) (hmem : (k, v) ∈ m) : App.mapGet m k = some v := by
  induction m with
  | nil => simp at hmem
  | cons entry rest ih =>
    obtain ⟨k0, v0⟩ := entry
    simp only [List.map_cons, List.nodup_cons] at hnodup
    rcases List.mem_cons.mp hmem with heq | hrest
    · have h1 : k0 = k := (congrArg Prod.fst heq).symm
      have h2 : v0 = v := (congrArg Prod.snd heq).symm
      simp [App.mapGet, h1, h2]
    · have hne : ¬ k0 = k := by
        intro hc
        apply hnodup.1
        rw [hc]
        exact List.mem_map_of_mem Prod.fst hrest
      simp only [App.mapGet, if_neg hne]
      exact ih hnodup.2 hrest

theorem firstIndex_lt_length (c : JsString) (cats : List JsString) (h : c ∈ cats) :
    firstIndex c cats < cats.length :=
  List.findIdx_lt_length.mpr ⟨c, h, by simp⟩

theorem firstIndex_append_of_mem (c : JsString) (cats more : List JsString) (h : c ∈ cats) :
    firstIndex c (cats ++ more) = firstIndex c cats := by
  have hlt := firstIndex_lt_length c cats h
  unfold firstIndex at hlt ⊢
  rw [List.findIdx_append, if_pos hlt]

theorem firstIndex_concat_of_not_mem (c : JsString) (cats : List JsString) (h : c ∉ cats) :
    firstIndex c (cats ++ [c]) = cats.length := by
  have hge : ¬ cats.findIdx (fun k => decide (k = c)) < cats.length := by
    rw [List.findIdx_lt_length]
    rintro ⟨x, hx, hxc⟩
    have : x = c := by simpa using hxc
    exact h (this ▸ hx)
  unfold firstIndex
  rw [List.findIdx_append, if_neg hge]
  simp [List.findIdx_cons]

theorem categorySum_concat (plus : ℚ → ℚ → ℚ) (xs : List App.Expense) (e : App.Expense)
    (c : JsString) :
    App.categorySum plus c (xs ++ [e])
      = if e.category = c then plus (App.categorySum plus c xs) e.value
        else App.categorySum plus c xs := by
  unfold App.categorySum
  rw [List.filter_append]
  by_cases h : e.category = c
  · simp [h, List.foldl_append]
  · simp [h]

/-- The state of the loop of `aggregated` after the expenses `xs`, for any addition: the
keys are the categories seen, in the order of their first occurrence, and the value of a
key is the left-to-right sum of the values of its category. -/
theorem categoryTotals_invariant (plus : ℚ → ℚ → ℚ) (xs : List App.Expense) :
    (∀ c, c ∈ (App.categoryTotals plus xs).map Prod.fst ↔ c ∈ xs.map (fun e => e.category)) ∧
    List.Pairwise
      (fun a b => firstIndex a (xs.map (fun e => e.category))
        < firstIndex b (xs.map (fun e => e.category)))
      ((App.categoryTotals plus xs).map Prod.fst) ∧
    (∀ c, (App.mapGet (App.categoryTotals plus xs) c).getD 0 = App.categorySum plus c xs) := by
  induction xs using List.reverseRecOn with
  | nil =>
    refine ⟨fun c => by simp [App.categoryTotals], by simp [App.categoryTotals], ?_⟩
    intro c
    simp [App.categoryTotals, App.mapGet, App.categorySum]
  | append_singleton xs e ih =>
    obtain ⟨hmem, hord, hget⟩ := ih
    have hkeys := keys_mapSet (App.categoryTotals plus xs) e.category
      (plus ((App.mapGet (App.categoryTotals plus xs) e.category).getD 0) e.value)
    have hcats : (xs ++ [e]).map (fun e => e.category)
        = xs.map (fun e => e.category) ++ [e.category] := by simp
    rw [categoryTotals_concat, hcats]
    refine ⟨?_, ?_, ?_⟩
    · intro c
      rw [hkeys]
      by_cases hk : e.category ∈ (App.categoryTotals plus xs).map Prod.fst
      · rw [if_pos hk, List.mem_append, hmem c, List.mem_singleton]
        constructor
        · exact Or.inl
        · rintro (h | h)
          · exact h
          · rw [h]
            exact (hmem e.category).mp hk
      · rw [if_neg hk, List.mem_append, List.mem_append, hmem c]
    · rw [hkeys]
      have hold : List.Pairwise
          (fun a b => firstIndex a (xs.map (fun e => e.category) ++ [e.category])
            < firstIndex b (xs.map (fun e => e.category) ++ [e.category]))
          ((App.categoryTotals plus xs).map Prod.fst) := by
        refine List.Pairwise.imp_of_mem ?_ hord
        intro a b ha hb hlt
        rw [firstIndex_append_of_mem a _ _ ((hmem a).mp ha),
          firstIndex_append_of_mem b _ _ ((hmem b).mp hb)]
        exact hlt
      by_cases hk : e.category ∈ (App.categoryTotals plus xs).map Prod.fst
      · rw [if_pos hk]
        exact hold
      · rw [if_neg hk, List.pairwise_append]
        refine ⟨hold, List.pairwise_singleton _ _, ?_⟩
        intro a ha b hb
        rw [List.mem_singleton] at hb
        subst hb
        have hnot : e.category ∉ xs.map (fun e => e.category) :=
          fun hc => hk ((hmem e.category).mpr hc)
        rw [firstIndex_append_of_mem a _ _ ((hmem a).mp ha),
          firstIndex_concat_of_not_mem _ _ hnot]
        exact firstIndex_lt_length a _ ((hmem a).mp ha)
    · intro c
      rw [mapGet_mapSet, categorySum_concat]
      by_cases hc : c = e.category
      · subst hc
        simp [hget]
      · have hc' : ¬ e.category = c := fun h => hc h.symm
        simp [hc, hc', hget]

/-- With exact addition the values in the `Map` of `aggregated` add up to the total. -/
theorem categoryTotals_sum_exact (xs : List App.Expense) :
    ((App.categoryTotals (fun a b => a + b) xs).map Prod.snd).sum = App.sumValues xs := by
  induction xs using List.reverseRecOn with
  | nil => simp [App.categoryTotals, App.sumValues]
  | append_singleton xs e ih =>
    rw [categoryTotals_concat, sum_mapSet, ih, sumValues_append]
    simp only [App.sumValues, List.map_cons, List.map_nil, List.sum_cons, List.sum_nil]
    ring

/-- C7, as the specification states it, fails for the doubles of the program: for the
expenses 0.1 of category a, 0.1 of category b and 0.25 of category a, `aggregated` gives
a 0.35 and b 0.1.  These two values add up to 0.44999999999999996 where the three values of
the list add up to 0.45, and as exact numbers the two sums differ as well, because the
addition of 0.1 and 0.25 is rounded. -/
theorem aggregated_values_miss_total :
    App.parseValue (some "0.1".toList) = 3602879701896397 / 36028797018963968 ∧
    App.aggregated doubleAdd App.smallExpenses
      = [⟨"a".toList, 3152519739159347 / 9007199254740992⟩,
         ⟨"b".toList, 3602879701896397 / 36028797018963968⟩] ∧
    (App.aggregated doubleAdd App.smallExpenses).foldl (fun s r => doubleAdd s r.value) 0
      = 2026619832316723 / 4503599627370496 ∧
    App.smallExpenses.foldl (fun s e => doubleAdd s e.value) 0
      = 8106479329266893 / 18014398509481984 ∧
    (App.aggregated doubleAdd App.smallExpenses).foldl (fun s r => doubleAdd s r.value) 0
      ≠ App.smallExpenses.foldl (fun s e => doubleAdd s e.value) 0 ∧
    App.sumValues (App.aggregated doubleAdd App.smallExpenses)
      ≠ App.sumValues App.smallExpenses := by
  refine ⟨?_, ?_, ?_, ?_, ?_, ?_⟩ <;> decide!

/-- C7, amended: for every expense list and whatever the addition of the engine rounds to,
`aggregated` has exactly one entry per distinct category of the list (its categories are
pairwise different and are exactly the categories that occur in the list), the entries are
ordered by the position of the first occurrence of their category in the list, and the
value of each entry is the sum, added from left to right, of the values of all expenses with
that category; the empty list gives the empty result.  With exact addition the values of
the result add up to the total of the list.  On `[{mercado,50},{mercado,30},{lazer,10}]` the
result is `[{mercado,80},{lazer,10}]`, with doubles and with exact addition. -/
theorem aggregated_by_category (plus : ℚ → ℚ → ℚ) (expenses : List App.Expense) :
    ((App.aggregated plus expenses).map (fun r => r.category)).Nodup ∧
    (∀ c, c ∈ (App.aggregated plus expenses).map (fun r => r.category)
      ↔ c ∈ expenses.map (fun e => e.category)) ∧
    List.Pairwise
      (fun a b => firstIndex a.category (expenses.map (fun e => e.category))
        < firstIndex b.category (expenses.map (fun e => e.category)))
      (App.aggregated plus expenses) ∧
    (∀ r ∈ App.aggregated plus expenses,
      r.value = App.categorySum plus r.category expenses) ∧
    App.aggregated plus [] = [] ∧
    App.sumValues (App.aggregated (fun a b => a + b) expenses) = App.sumValues expenses ∧
    App.aggregated doubleAdd
        [⟨"mercado".toList, 50⟩, ⟨"mercado".toList, 30⟩, ⟨"lazer".toList, 10⟩]
      = [⟨"mercado".toList, 80⟩, ⟨"lazer".toList, 10⟩] ∧
    App.aggregated (fun a b => a + b)
        [⟨"mercado".toList, 50⟩, ⟨"mercado".toList, 30⟩, ⟨"lazer".toList, 10⟩]
      = [⟨"mercado".toList, 80⟩, ⟨"lazer".toList, 10⟩] := by
  obtain ⟨hmem, hord, hget⟩ := categoryTotals_invariant plus expenses
  have hkeys : (App.aggregated plus expenses).map (fun r => r.category)
      = (App.categoryTotals plus expenses).map Prod.fst := by
    rw [aggregated_eq_map, List.map_map]
    rfl
  have hnodup : ((App.categoryTotals plus expenses).map Prod.fst).Nodup := by
    refine List.Pairwise.imp ?_ hord
    intro a b hlt hab
    rw [hab] at hlt
    exact Nat.lt_irrefl _ hlt
  refine ⟨hkeys ▸ hnodup, ?_, ?_, ?_, rfl, ?_, ?_, ?_⟩
  · intro c
    rw [hkeys]
    exact hmem c
  · have h := List.pairwise_map.mp hord
    rw [aggregated_eq_map, List.pairwise_map]
    exact h
  · intro r hr
    rw [aggregated_eq_map, List.mem_map] at hr
    obtain ⟨entry, hentry, rfl⟩ := hr
    have hlook := mapGet_of_mem (App.categoryTotals plus expenses) entry.1 entry.2 hnodup
      hentry
    have := hget entry.1
    rw [hlook] at this
    exact this
  · have hexact := categoryTotals_sum_exact expenses
    rw [← hexact, aggregated_eq_map]
    simp [App.sumValues, List.map_map, Function.comp_def]
  · decide!
  · decide!

/-! ## Indices outside the list -/

/-- C9, as the specification states it, fails for `handleDelete`: on the two-expense ledger
the call `handleDelete(2)` is not rejected.  It returns normally, with the state it found. -/
theorem handleDelete_out_of_range_not_rejected :
    App.handleDelete App.twoExpenses 2 = Except.ok App.twoExpenses ∧
    ∀ e, App.handleDelete App.twoExpenses 2 ≠ Except.error e := by
  have h : App.handleDelete App.twoExpenses 2 = Except.ok App.twoExpenses := by
    decide!
  refine ⟨h, ?_⟩
  intro e he
  rw [h] at he
  cases he

/-- C9, amended: for every ledger `sd` (whatever its edit state) and every index that is
not a position of its expense list (negative, or at least the length), `handleDelete(index)`
raises no error and returns the state unchanged, so the expense list and the balance are the
same; and for every ledger `se` whose `editingIndex` is not a position of its expense list
(negative, at least the length, or the initial `null`), `handleSaveEdit` throws a
`TypeError` before it sets any state. -/
theorem out_of_range_index_keeps_ledger (sd : App.State) (index : Int) (se : App.State)
    (hindex : index < 0 ∨ (sd.expenses.length : Int) ≤ index)
    (hedit : App.inBounds se.expenses se.editingIndex = false) :
    App.handleDelete sd index = Except.ok sd ∧
    App.handleSaveEdit se = Except.error JsError.typeError := by
  constructor
  · have hnone := elementAt_of_not_inBounds sd.expenses index hindex
    have hfilter : filterFrom (fun _ i => decide ((i : Int) ≠ index)) 0 sd.expenses
        = sd.expenses := by
      rw [filterFrom_index]
      split
      · apply List.eraseIdx_of_length_le
        omega
      · rfl
    simp only [App.handleDelete, hnone, hfilter, add_zero]
  · have hnone : se.editingIndex.bind (elementAt se.expenses) = none := by
      cases hidx : se.editingIndex with
      | none => rfl
      | some i =>
        rw [hidx] at hedit
        simp only [App.inBounds, Bool.and_eq_false_iff, decide_eq_false_iff_not] at hedit
        apply elementAt_of_not_inBounds
        omega
    unfold App.handleSaveEdit
    rw [hnone]

/-- On the two-expense ledger while row 1 is being edited, `handleDelete(-1)` and
`handleDelete(2)` return the ledger as it was, edit state included; and on the two-expense
ledger with `editingIndex` 2, or with the initial `null`, `handleSaveEdit` throws a
`TypeError`. -/
theorem out_of_range_index_keeps_ledger_witness :
    (App.handleDelete
        { App.twoExpenses with editingIndex := some 1, editValue := "45".toList } (-1)
      = Except.ok { App.twoExpenses with editingIndex := some 1, editValue := "45".toList } ∧
     App.handleSaveEdit { App.twoExpenses with editingIndex := some 2 }
      = Except.error JsError.typeError) ∧
    (App.handleDelete
        { App.twoExpenses with editingIndex := some 1, editValue := "45".toList } 2
      = Except.ok { App.twoExpenses with editingIndex := some 1, editValue := "45".toList } ∧
     App.handleSaveEdit App.twoExpenses = Except.error JsError.typeError) :=
  ⟨out_of_range_index_keeps_ledger
      { App.twoExpenses with editingIndex := some 1, editValue := "45".toList } (-1)
      { App.twoExpenses with editingIndex := some 2 } (Or.inl (by decide)) (by decide),
   out_of_range_index_keeps_ledger
      { App.twoExpenses with editingIndex := some 1, editValue := "45".toList } 2
      App.twoExpenses (Or.inr (by decide)) (by decide)⟩

/-! ## Extraction of value and category -/

/-- C5 at the input "gastei 12,50 mercado" (and with a point for the comma): `handleSend` of
`src/app.jsx` records the decimal number 12,5, and `handleSend` of `src/FinanceChat.js`
records 12, the digits before the separator, and lowers the balance by 12 only. -/
theorem value_extraction_at_decimal_input :
    ((App.handleSend (List.map Char.toLower)
        { App.emptyLedger with input := "gastei 12,50 mercado".toList }).expenses
      = [⟨"mercado".toList, 25 / 2⟩] ∧
     (App.handleSend (List.map Char.toLower)
        { App.emptyLedger with input := "gastei 12.50 mercado".toList }).expenses
      = [⟨"mercado".toList, 25 / 2⟩]) ∧
    (matchDigits "gastei 12,50 mercado".toList = some "12".toList ∧
     FinanceChat.handleSend (List.map Char.toLower)
        { messages := [], input := "gastei 12,50 mercado".toList, expenses := [],
          balance := some 2000 }
      = { messages := [ChatMessage.user "gastei 12,50 mercado".toList,
            ChatMessage.bot (BotReply.recorded (some 12))],
          input := [], expenses := [⟨"mercado".toList, some 12⟩], balance := some 1988 } ∧
     (FinanceChat.handleSend (List.map Char.toLower)
        { messages := [], input := "gastei 12.50 mercado".toList, expenses := [],
          balance := some 2000 }).expenses
      = [⟨"mercado".toList, some 12⟩]) := by
  refine ⟨⟨?_, ?_⟩, ⟨?_, ?_, ?_⟩⟩ <;> decide!

/-- C6 at inputs with whitespace other than single inner spaces: for "gastei 120 mercado "
(a space at the end) `split(" ")` of `src/FinanceChat.js` ends with an empty piece, which
becomes the category, and for a tab before "mercado" the category is "120", the tab and
"mercado" in one piece; `src/app.jsx` records "mercado" for both inputs. -/
theorem category_extraction_at_spaced_input :
    (splitSpace "gastei 120 mercado ".toList
        = ["gastei".toList, "120".toList, "mercado".toList, []] ∧
     (FinanceChat.handleSend (List.map Char.toLower)
        { messages := [], input := "gastei 120 mercado ".toList, expenses := [],
          balance := some 2000 }).expenses
      = [⟨[], some 120⟩] ∧
     (FinanceChat.handleSend (List.map Char.toLower)
        { messages := [], input := "gastei 120\tmercado".toList, expenses := [],
          balance := some 2000 }).expenses
      = [⟨"120\tmercado".toList, some 120⟩]) ∧
    ((App.handleSend (List.map Char.toLower)
        { App.emptyLedger with input := "gastei 120 mercado ".toList }).expenses
      = [⟨"mercado".toList, 120⟩] ∧
     (App.handleSend (List.map Char.toLower)
        { App.emptyLedger with input := "gastei 120\tmercado".toList }).expenses
      = [⟨"mercado".toList, 120⟩]) := by
  refine ⟨⟨?_, ?_, ?_⟩, ⟨?_, ?_⟩⟩ <;> decide!

/-! ## Balance persistence -/

/-- C10 at the balance 0: the save effect stores the text `0`; the initialiser of
`src/FinanceChat.js` reads it back as 2000, because `0 || 2000` is 2000, while the initialiser
of `src/app.jsx` restores 0.  For every other finite balance both restore the balance
saved.  On an entry that cannot be parsed `src/app.jsx` falls back to 2000 and
`src/FinanceChat.js` throws. -/
theorem balance_round_trip_at_zero :
    FinanceChat.initialBalance (savedBalance 0) = Except.ok (JsValue.number 2000) ∧
    App.initialBalance (savedBalance 0) = JsValue.number 0 ∧
    (∀ b : ℚ, App.initialBalance (savedBalance b) = JsValue.number b) ∧
    (∀ b : ℚ, b ≠ 0 →
      FinanceChat.initialBalance (savedBalance b) = Except.ok (JsValue.number b)) ∧
    App.initialBalance StoredItem.absent = JsValue.number 2000 ∧
    FinanceChat.initialBalance StoredItem.absent = Except.ok (JsValue.number 2000) ∧
    App.initialBalance StoredItem.unreadable = JsValue.number 2000 ∧
    FinanceChat.initialBalance StoredItem.unreadable = Except.error JsError.syntaxError := by
  refine ⟨?_, ?_, ?_, ?_, rfl, rfl, rfl, rfl⟩
  · simp [FinanceChat.initialBalance, savedBalance, parseStored, JsValue.truthy]
  · simp [App.initialBalance, savedBalance, parseStored]
  · intro b
    simp [App.initialBalance, savedBalance, parseStored]
  · intro b hb
    simp [FinanceChat.initialBalance, savedBalance, parseStored, JsValue.truthy, hb]

